import Mathlib

/-!
Shallow embedding of the client-side data-derivation layer of the
optionstracker dashboard (`docs/app.js`, second page variant) and proofs
about it.

Modelling conventions:
* JS numbers are modelled as exact rationals (`ℚ`); the result of a numeric
  coercion (`parseFloat` / `parseInt`) of a raw string field is modelled as
  `Option ℚ` (resp. `Option Int`), where `none` stands for a non-finite
  result (`NaN`; `isFinite` is then `Option.isSome`).  Floating-point
  rounding and overflow are idealised away.
* JS strings are Lean `String`s; the default `Array.sort()` comparator and
  `localeCompare` on ISO date strings are modelled by the code-point order
  `(· ≤ ·)` on `String`.  `Array.sort` is required to be stable by the
  ECMAScript spec, and a stable sort is extensionally unique, so it is
  modelled by `List.insertionSort` (which is stable).
* JS objects built by `obj[h] = cols[i]` and JS `Map`s are modelled as
  association lists in insertion order (`mapGet` / `mapSet`); the code
  only ever updates through `mapSet`, which keeps keys unique.
* `text.trim()` is modelled on the ASCII whitespace characters occurring
  in these log files, and `split` with a one-character separator is
  modelled char by char, exactly as in ECMAScript (`"".split` yields one
  empty piece, a trailing separator yields a trailing empty piece).
-/

namespace OptionsTracker

/-- Whitespace test used by the model of `String.prototype.trim`. -/
def isWsp (c : Char) : Bool :=
  c = ' ' || c = '\t' || c = '\n' || c = '\r'

/-- Model of `text.trim()`: strips leading and trailing whitespace. -/
def jsTrim (s : String) : String :=
  String.mk (((s.toList.dropWhile isWsp).reverse.dropWhile isWsp).reverse)

/-- Helper for `jsSplit`: splits a character list at every occurrence of
the separator, accumulating the current (reversed) piece. -/
def splitCharAux (c : Char) : List Char → List Char → List (List Char)
  | [], acc => [acc.reverse]
  | x :: xs, acc =>
      if x = c then acc.reverse :: splitCharAux c xs []
      else splitCharAux c xs (x :: acc)

/-- Model of `s.split(sep)` for a one-character separator `sep`, with
ECMAScript semantics: `"".split(sep)` is `[""]`, and separators at the ends
produce empty pieces. -/
def jsSplit (c : Char) (s : String) : List String :=
  (splitCharAux c s.toList []).map String.mk

/-- Drops one trailing carriage return, as the `\r?` part of the
`split(/\r?\n/)` regex does for every piece that was followed by `\n`. -/
def stripCR (s : String) : String :=
  match s.toList.getLast? with
  | some c => if c = '\r' then String.mk s.toList.dropLast else s
  | none => s

/-- Applies `stripCR` to every piece that was followed by a newline,
i.e. to all pieces but the last. -/
def fixCR : List String → List String
  | [] => []
  | [s] => [s]
  | s :: rest => stripCR s :: fixCR rest

/-- Model of `text.split(/\r?\n/)`. -/
def splitLines (text : String) : List String :=
  fixCR (jsSplit '\n' text)

/-- Lookup in a JS object / `Map` modelled as an association list
(`map.get(k)`, `obj[k]`).  The code keeps keys unique, so taking the first
binding is faithful. -/
def mapGet {α : Type} : List (String × α) → String → Option α
  | [], _ => none
  | p :: ps, k => if p.1 = k then some p.2 else mapGet ps k

/-- Update in a JS object / `Map` modelled as an association list
(`map.set(k, v)`, `obj[k] = v`): replaces the binding in place if the key
is present, else appends it, preserving insertion order. -/
def mapSet {α : Type} : List (String × α) → String → α → List (String × α)
  | [], k, v => [(k, v)]
  | p :: ps, k, v => if p.1 = k then (k, v) :: ps else p :: mapSet ps k v

/-- Model of the row-building loop of `parseCSV`:
`headers.forEach((h, i) => obj[h] = cols[i])`, starting from `obj`.
A missing column (`i ≥ cols.length`) stores `none`, the model of
`undefined`. -/
def rowObjFrom (obj : List (String × Option String)) :
    List String → List String → List (String × Option String)
  | [], _ => obj
  | h :: hs, cols => rowObjFrom (mapSet obj h cols.head?) hs cols.tail

/-- Model of one data-row object of `parseCSV`. -/
def rowObj (headers cols : List String) : List (String × Option String) :=
  rowObjFrom [] headers cols

/-- Result of `parseCSV`: the header names and one record per data line. -/
structure ParsedCSV where
  headers : List String
  rows : List (List (String × Option String))
deriving DecidableEq, Repr

/-- Model of `parseCSV(text)` from `app.js`: trim, split into lines, and
if at most one line remains return no headers and no rows; otherwise split
the first line into header names and map every further line to a record. -/
def parseCSV (text : String) : ParsedCSV :=
  let lines := splitLines (jsTrim text)
  if lines.length ≤ 1 then ⟨[], []⟩
  else
    match lines with
    | [] => ⟨[], []⟩
    | hdr :: rest =>
        let headers := jsSplit ',' hdr
        ⟨headers, rest.map (fun line => rowObj headers (jsSplit ',' line))⟩

/-- One row of `portfolio.csv` after numeric coercion of its fields
(`parseFloat`); `none` models a non-finite coercion result. -/
structure PortfolioRow where
  date : String
  total_value : Option ℚ
  total_cost_basis : Option ℚ
  total_pnl : Option ℚ
deriving DecidableEq, Repr

/-- One row of `history.csv` after numeric coercion of its fields
(`parseFloat` / `parseInt(.., 10)`); `none` models a non-finite result. -/
structure PositionRow where
  date : String
  underlying : String
  symbolKey : String
  contracts : Option Int
  cost_per_contract : Option ℚ
  price : Option ℚ
  value : Option ℚ
  pnl : Option ℚ
  pnl_pct : Option ℚ
deriving DecidableEq, Repr

/-- Model of the `byDateAsc` comparator on portfolio rows
(`a.date.localeCompare(b.date)` on ISO dates). -/
def byDateAsc (a b : PortfolioRow) : Prop := a.date ≤ b.date

instance : DecidableRel byDateAsc :=
  fun a b => inferInstanceAs (Decidable (a.date ≤ b.date))

instance : IsTotal PortfolioRow byDateAsc :=
  ⟨fun a b => le_total a.date b.date⟩

instance : IsTrans PortfolioRow byDateAsc :=
  ⟨fun _ _ _ h h' => le_trans h h'⟩

/-- Model of the `byDateAsc` comparator on position rows. -/
def byDateAscPos (a b : PositionRow) : Prop := a.date ≤ b.date

instance : DecidableRel byDateAscPos :=
  fun a b => inferInstanceAs (Decidable (a.date ≤ b.date))

instance : IsTotal PositionRow byDateAscPos :=
  ⟨fun a b => le_total a.date b.date⟩

instance : IsTrans PositionRow byDateAscPos :=
  ⟨fun _ _ _ h h' => le_trans h h'⟩

/-- The value contribution of one position row:
`isFinite(val) ? val : 0` for `val = parseFloat(r.value)`. -/
def valC (r : PositionRow) : ℚ := r.value.getD 0

/-- The cost contribution of one position row:
`(isFinite(cpc) && isFinite(cons)) ? cpc * cons * 100 : 0`. -/
def costC (r : PositionRow) : ℚ :=
  match r.cost_per_contract, r.contracts with
  | some cpc, some n => cpc * (n : ℚ) * 100
  | _, _ => 0

/-- The percent-return formula `c > 0 ? (p / c) * 100 : 0` on coerced
fields, shared by `computeSeriesAll` and `updateHeaderStatsOverall`.
A non-finite `c` fails the `c > 0` test, giving `0`; a non-finite `p`
with `c > 0` propagates (`NaN`, modelled `none`). -/
def pctOf (p c : Option ℚ) : Option ℚ :=
  match c with
  | some cv => if 0 < cv then p.map (fun pv => pv / cv * 100) else some 0
  | none => some 0

/-- Chart series of the whole-portfolio derivation; entries may be
non-finite (`none`). -/
structure SeriesN where
  labels : List String
  value : List (Option ℚ)
  pnl : List (Option ℚ)
  pct : List (Option ℚ)
deriving DecidableEq, Repr

/-- Chart series of the per-underlying derivation; all entries are finite
because every contribution is guarded by `isFinite`. -/
structure SeriesU where
  labels : List String
  value : List ℚ
  pnl : List ℚ
  pct : List ℚ
deriving DecidableEq, Repr

/-- Model of `computeSeriesAll()` from `app.js`, as a function of the
loaded `portfolioRows`. -/
def computeSeriesAll (rows : List PortfolioRow) : SeriesN :=
  if rows.isEmpty then ⟨[], [], [], []⟩
  else
    let sorted := rows.insertionSort byDateAsc
    ⟨sorted.map (·.date),
     sorted.map (·.total_value),
     sorted.map (·.total_pnl),
     sorted.map (fun r => pctOf r.total_pnl r.total_cost_basis)⟩

/-- One step of the accumulation loop of `computeSeriesUnderlying`:
skip rows of other underlyings, otherwise add the row's value and cost
contributions to its date's entry. -/
def seriesStep (u : String) (m : List (String × ℚ × ℚ)) (r : PositionRow) :
    List (String × ℚ × ℚ) :=
  if r.underlying ≠ u then m
  else
    let entry := (mapGet m r.date).getD (0, 0)
    mapSet m r.date (entry.1 + valC r, entry.2 + costC r)

/-- The `date → {value, cost}` map built by `computeSeriesUnderlying`. -/
def seriesAcc (u : String) (rows : List PositionRow) : List (String × ℚ × ℚ) :=
  rows.foldl (seriesStep u) []

/-- Model of `computeSeriesUnderlying(underlying)` from `app.js`, as a
function of the loaded `historyRows`. -/
def computeSeriesUnderlying (rows : List PositionRow) (u : String) : SeriesU :=
  if rows.isEmpty then ⟨[], [], [], []⟩
  else
    let m := seriesAcc u rows
    let labels := (m.map (·.1)).insertionSort (· ≤ ·)
    let value := labels.map (fun d => ((mapGet m d).getD (0, 0)).1)
    let cost := labels.map (fun d => ((mapGet m d).getD (0, 0)).2)
    let pnl := List.zipWith (· - ·) value cost
    let pct := List.zipWith (fun p c => if 0 < c then p / c * 100 else 0) pnl cost
    ⟨labels, value, pnl, pct⟩

/-- Specification-side per-date value sum, following the spec text: the sum
of `value` over the rows of underlying `u` on date `d` (non-finite fields
contributing `0`). -/
def sumValues (rows : List PositionRow) (u d : String) : ℚ :=
  ((rows.filter (fun r => decide (r.underlying = u ∧ r.date = d))).map valC).sum

/-- Specification-side per-date cost sum: the sum of the implied cost basis
`cost_per_contract * contracts * 100` over the rows of underlying `u` on
date `d`. -/
def sumCosts (rows : List PositionRow) (u d : String) : ℚ :=
  ((rows.filter (fun r => decide (r.underlying = u ∧ r.date = d))).map costC).sum

/-- Dates of the rows matching underlying `u`, in log order. -/
def datesOf (rows : List PositionRow) (u : String) : List String :=
  (rows.filter (fun r => decide (r.underlying = u))).map (·.date)

/-- Specification-side per-underlying series, following the spec text:
one point per distinct date among the filtered rows, sorted ascending by
date string; per-date `value` and cost sums; `pnl = value - cost`;
percent return with the zero-cost-basis guard. -/
def seriesUnderlyingSpec (rows : List PositionRow) (u : String) : SeriesU :=
  let labels := ((datesOf rows u).dedup).insertionSort (· ≤ ·)
  ⟨labels,
   labels.map (sumValues rows u),
   labels.map (fun d => sumValues rows u d - sumCosts rows u d),
   labels.map (fun d =>
     if 0 < sumCosts rows u d then
       (sumValues rows u d - sumCosts rows u d) / sumCosts rows u d * 100
     else 0)⟩

/-- Model of the axis-bounds derivation `percentAxisBounds(pcts)`:
non-finite entries are filtered out; with no finite entry the fallback is
`(-10, 10)`; otherwise the range spans `0` and the min and max. -/
def percentAxisBounds (pcts : List (Option ℚ)) : ℚ × ℚ :=
  match pcts.filterMap id with
  | [] => (-10, 10)
  | x :: xs => (min 0 (xs.foldl min x), max 0 (xs.foldl max x))

/-- Model of the latest-snapshot table rows of `loadPositionsTable()`:
sort (stably) by date, take the date of the last row, and keep the rows of
that date. -/
def positionsTableRows (rows : List PositionRow) : List PositionRow :=
  if rows.isEmpty then []
  else
    let sorted := rows.insertionSort byDateAscPos
    match sorted.getLast? with
    | none => []
    | some last => sorted.filter (fun r => decide (r.date = last.date))

/-- Header statistics as set by `setHeaderStats`; `none` models a
non-finite number (rendered as a placeholder). -/
structure HeaderStats where
  totalValue : Option ℚ
  totalPnl : Option ℚ
  totalPct : Option ℚ
deriving DecidableEq, Repr

/-- Model of `updateHeaderStatsOverall()`: `none` when the function
returns early (no portfolio rows, stats left unchanged), otherwise the
stats taken from the last row after sorting by date. -/
def headerStatsOverall (rows : List PortfolioRow) : Option HeaderStats :=
  if rows.isEmpty then none
  else
    match (rows.insertionSort byDateAsc).getLast? with
    | none => none
    | some latest =>
        some ⟨latest.total_value, latest.total_pnl,
          pctOf latest.total_pnl latest.total_cost_basis⟩

/-- Insertion-order deduplication, the model of
`Array.from(new Set(xs))`. -/
def firstDedup (l : List String) : List String :=
  l.foldl (fun acc d => if d ∈ acc then acc else acc ++ [d]) []

/-- The latest date over all position rows:
`Array.from(new Set(historyRows.map(r => r.date))).sort()` and then the
last element. -/
def latestDateAll (rows : List PositionRow) : Option String :=
  ((firstDedup (rows.map (·.date))).insertionSort (· ≤ ·)).getLast?

/-- Model of `updateHeaderStatsUnderlying(underlying)`: `none` when the
function returns early (no history rows), otherwise sums over the rows of
that underlying on the latest date over all rows. -/
def headerStatsUnderlying (rows : List PositionRow) (u : String) :
    Option HeaderStats :=
  if rows.isEmpty then none
  else
    match latestDateAll rows with
    | none => none
    | some latestDate =>
        let todays := rows.filter
          (fun r => decide (r.date = latestDate ∧ r.underlying = u))
        let totalValue := (todays.map valC).sum
        let totalCost := (todays.map costC).sum
        let totalPnl := totalValue - totalCost
        some ⟨some totalValue, some totalPnl,
          some (if 0 < totalCost then totalPnl / totalCost * 100 else 0)⟩

/-- View-controller state: the loaded row sets, the current filter, the
rendered per-underlying chart (series and label), and the last header
stats written to the page (`none` = never written). -/
structure AppState where
  portfolioRows : List PortfolioRow
  historyRows : List PositionRow
  currentFilter : Option String
  chart : Option (SeriesU × String)
  header : Option HeaderStats
deriving DecidableEq, Repr

/-- JS truthiness of the `currentFilter` variable: `null` and the empty
string are falsy. -/
def jsTruthy : Option String → Bool
  | none => false
  | some s => decide (s ≠ "")

/-- Model of `updateHeaderStatsByFilter()`: dispatches on the truthiness
of `currentFilter`; an early return of the callee leaves the header
unchanged. -/
def updateHeaderStatsByFilter (s : AppState) : AppState :=
  if jsTruthy s.currentFilter then
    match headerStatsUnderlying s.historyRows (s.currentFilter.getD "") with
    | none => s
    | some h => { s with header := some h }
  else
    match headerStatsOverall s.portfolioRows with
    | none => s
    | some h => { s with header := some h }

/-- Model of `applyFilter(underlying)`: set the filter, recompute and
render the per-underlying series, and update the header stats. -/
def applyFilter (u : String) (s : AppState) : AppState :=
  let s1 : AppState := { s with currentFilter := some u }
  let s2 : AppState :=
    { s1 with chart := some (computeSeriesUnderlying s1.historyRows u, u) }
  updateHeaderStatsByFilter s2

/-! Lemmas about the association-list model of JS `Map`s and objects. -/

theorem mapGet_mapSet_self {α : Type} (m : List (String × α)) (k : String) (v : α) :
    mapGet (mapSet m k v) k = some v := by
  induction m with
  | nil => simp [mapGet, mapSet]
  | cons p ps ih =>
      by_cases h : p.1 = k
      · simp [mapGet, mapSet, h]
      · simp [mapGet, mapSet, h, ih]

theorem mapGet_mapSet_ne {α : Type} (m : List (String × α)) {k k' : String} (v : α)
    (h : k' ≠ k) : mapGet (mapSet m k v) k' = mapGet m k' := by
  have h1 : ¬ (k = k') := fun hh => h hh.symm
  induction m with
  | nil => simp [mapGet, mapSet, h1]
  | cons p ps ih =>
      by_cases hp : p.1 = k
      · have h2 : ¬ (p.1 = k') := by rw [hp]; exact h1
        simp [mapGet, mapSet, hp, h1, h2]
      · by_cases hp' : p.1 = k'
        · simp [mapGet, mapSet, hp, hp', h]
        · simp [mapGet, mapSet, hp, hp', ih]

theorem map_fst_mapSet_of_mem {α : Type} (m : List (String × α)) {k : String} (v : α)
    (h : k ∈ m.map (·.1)) : (mapSet m k v).map (·.1) = m.map (·.1) := by
  induction m with
  | nil => simp at h
  | cons p ps ih =>
      by_cases hp : p.1 = k
      · simp [mapSet, hp]
      · have hmem : k ∈ p.1 :: ps.map (·.1) := by rw [List.map_cons] at h; exact h
        have h' : k ∈ ps.map (·.1) := by
          rcases List.mem_cons.mp hmem with h1 | h1
          · exact absurd h1.symm hp
          · exact h1
        simp [mapSet, hp, ih h']

theorem map_fst_mapSet_of_not_mem {α : Type} (m : List (String × α)) {k : String} (v : α)
    (h : k ∉ m.map (·.1)) : (mapSet m k v).map (·.1) = m.map (·.1) ++ [k] := by
  induction m with
  | nil => simp [mapSet]
  | cons p ps ih =>
      have h1 : ¬ (p.1 = k) := fun hh => h (by simp [hh])
      have h2 : k ∉ ps.map (·.1) := fun hh => h (by simp [hh])
      simp [mapSet, h1, ih h2]

theorem mem_map_fst_mapSet {α : Type} (m : List (String × α)) (k a : String) (v : α) :
    a ∈ (mapSet m k v).map (·.1) ↔ a ∈ m.map (·.1) ∨ a = k := by
  by_cases hm : k ∈ m.map (·.1)
  · rw [map_fst_mapSet_of_mem m v hm]
    constructor
    · exact Or.inl
    · rintro (h | rfl)
      · exact h
      · exact hm
  · rw [map_fst_mapSet_of_not_mem m v hm]
    simp [List.mem_append]

theorem nodup_map_fst_mapSet {α : Type} (m : List (String × α)) (k : String) (v : α)
    (h : (m.map (·.1)).Nodup) : ((mapSet m k v).map (·.1)).Nodup := by
  by_cases hm : k ∈ m.map (·.1)
  · rwa [map_fst_mapSet_of_mem m v hm]
  · rw [map_fst_mapSet_of_not_mem m v hm]
    refine List.Nodup.append h (List.nodup_singleton k) ?_
    intro a ha hb
    rw [List.mem_singleton] at hb
    subst hb
    exact hm ha

/-! Unfolding lemmas for the specification-side sums. -/

theorem sumValues_cons (r : PositionRow) (rows : List PositionRow) (u d : String) :
    sumValues (r :: rows) u d =
      (if r.underlying = u ∧ r.date = d then valC r else 0) + sumValues rows u d := by
  by_cases h : r.underlying = u ∧ r.date = d
  · simp [sumValues, List.filter_cons, h]
  · simp [sumValues, List.filter_cons, h]

theorem sumCosts_cons (r : PositionRow) (rows : List PositionRow) (u d : String) :
    sumCosts (r :: rows) u d =
      (if r.underlying = u ∧ r.date = d then costC r else 0) + sumCosts rows u d := by
  by_cases h : r.underlying = u ∧ r.date = d
  · simp [sumCosts, List.filter_cons, h]
  · simp [sumCosts, List.filter_cons, h]

theorem datesOf_cons (r : PositionRow) (rows : List PositionRow) (u : String) :
    datesOf (r :: rows) u =
      (if r.underlying = u then [r.date] else []) ++ datesOf rows u := by
  by_cases h : r.underlying = u
  · simp [datesOf, List.filter_cons, h]
  · simp [datesOf, List.filter_cons, h]

/-! The invariant of the accumulation loop of `computeSeriesUnderlying`. -/

theorem mapGet_foldl_seriesStep (u : String) (rows : List PositionRow) :
    ∀ (m : List (String × ℚ × ℚ)) (d : String),
      mapGet (rows.foldl (seriesStep u) m) d =
        match mapGet m d with
        | some vc => some (vc.1 + sumValues rows u d, vc.2 + sumCosts rows u d)
        | none =>
            if d ∈ datesOf rows u then some (sumValues rows u d, sumCosts rows u d)
            else none := by
  induction rows with
  | nil =>
      intro m d
      cases h : mapGet m d <;>
        simp [sumValues, sumCosts, datesOf, h]
  | cons r rows ih =>
      intro m d
      rw [List.foldl_cons, ih, sumValues_cons, sumCosts_cons, datesOf_cons]
      by_cases hu : r.underlying = u
      · by_cases hd : r.date = d
        · have hstep : seriesStep u m r =
              mapSet m r.date
                (((mapGet m r.date).getD (0, 0)).1 + valC r,
                 ((mapGet m r.date).getD (0, 0)).2 + costC r) := by
            simp [seriesStep, hu]
          rw [hstep]
          subst hd
          rw [mapGet_mapSet_self]
          cases h : mapGet m r.date with
          | none => simp [h, hu, add_assoc]
          | some vc => simp [h, hu, add_assoc]
        · have hdd : ¬ d = r.date := fun hh => hd hh.symm
          have hstep : seriesStep u m r =
              mapSet m r.date
                (((mapGet m r.date).getD (0, 0)).1 + valC r,
                 ((mapGet m r.date).getD (0, 0)).2 + costC r) := by
            simp [seriesStep, hu]
          rw [hstep, mapGet_mapSet_ne m _ hdd]
          cases h : mapGet m d with
          | none => simp [h, hu, hd, hdd]
          | some vc => simp [h, hu, hd]
      · have hstep : seriesStep u m r = m := by simp [seriesStep, hu]
        rw [hstep]
        cases h : mapGet m d with
        | none => simp [h, hu]
        | some vc => simp [h, hu]

theorem mapGet_seriesAcc (u : String) (rows : List PositionRow) (d : String) :
    mapGet (seriesAcc u rows) d =
      if d ∈ datesOf rows u then some (sumValues rows u d, sumCosts rows u d)
      else none := by
  have h := mapGet_foldl_seriesStep u rows [] d
  simpa [seriesAcc, mapGet] using h

theorem mem_map_fst_foldl_seriesStep (u : String) (rows : List PositionRow) :
    ∀ (m : List (String × ℚ × ℚ)) (d : String),
      d ∈ (rows.foldl (seriesStep u) m).map (·.1) ↔
        d ∈ m.map (·.1) ∨ d ∈ datesOf rows u := by
  induction rows with
  | nil => intro m d; simp [datesOf]
  | cons r rows ih =>
      intro m d
      rw [List.foldl_cons, ih, datesOf_cons]
      by_cases hu : r.underlying = u
      · have hstep : seriesStep u m r =
            mapSet m r.date
              (((mapGet m r.date).getD (0, 0)).1 + valC r,
               ((mapGet m r.date).getD (0, 0)).2 + costC r) := by
          simp [seriesStep, hu]
        rw [hstep, mem_map_fst_mapSet, if_pos hu]
        simp only [List.singleton_append, List.mem_cons]
        tauto
      · have hstep : seriesStep u m r = m := by simp [seriesStep, hu]
        rw [hstep, if_neg hu]
        simp only [List.nil_append]

theorem nodup_map_fst_foldl_seriesStep (u : String) (rows : List PositionRow) :
    ∀ (m : List (String × ℚ × ℚ)), (m.map (·.1)).Nodup →
      ((rows.foldl (seriesStep u) m).map (·.1)).Nodup := by
  induction rows with
  | nil => intro m h; simpa using h
  | cons r rows ih =>
      intro m h
      rw [List.foldl_cons]
      apply ih
      by_cases hu : r.underlying = u
      · have hstep : seriesStep u m r =
            mapSet m r.date
              (((mapGet m r.date).getD (0, 0)).1 + valC r,
               ((mapGet m r.date).getD (0, 0)).2 + costC r) := by
          simp [seriesStep, hu]
        rw [hstep]
        exact nodup_map_fst_mapSet m _ _ h
      · have hstep : seriesStep u m r = m := by simp [seriesStep, hu]
        rwa [hstep]

theorem mem_map_fst_seriesAcc (u : String) (rows : List PositionRow) (d : String) :
    d ∈ (seriesAcc u rows).map (·.1) ↔ d ∈ datesOf rows u := by
  have h := mem_map_fst_foldl_seriesStep u rows [] d
  simpa [seriesAcc] using h

theorem nodup_map_fst_seriesAcc (u : String) (rows : List PositionRow) :
    ((seriesAcc u rows).map (·.1)).Nodup := by
  have h := nodup_map_fst_foldl_seriesStep u rows [] (by simp)
  simpa [seriesAcc] using h

theorem zipWith_same {α β : Type} (f : α → α → β) :
    ∀ l : List α, List.zipWith f l l = l.map (fun a => f a a)
  | [] => rfl
  | a :: l => by simp [List.zipWith_cons_cons, zipWith_same f l]

/-- The sorted key list of the accumulator map is the sorted deduplicated
date list of the filtered rows. -/
theorem labels_code_eq_spec (rows : List PositionRow) (u : String) :
    ((seriesAcc u rows).map (·.1)).insertionSort (· ≤ ·) =
      ((datesOf rows u).dedup).insertionSort (· ≤ ·) := by
  apply List.eq_of_perm_of_sorted (r := (· ≤ · : String → String → Prop))
  · refine ((List.perm_insertionSort _ _).trans ?_).trans
      (List.perm_insertionSort _ _).symm
    rw [List.perm_ext_iff_of_nodup (nodup_map_fst_seriesAcc u rows)
      (List.nodup_dedup _)]
    intro a
    rw [mem_map_fst_seriesAcc, List.mem_dedup]
  · exact List.sorted_insertionSort _ _
  · exact List.sorted_insertionSort _ _

/-- Refinement of the per-underlying aggregation loop: the `Map`-based
grouping of `computeSeriesUnderlying` equals the filter/group/sum
description of the specification. -/
theorem computeSeriesUnderlying_eq_spec (rows : List PositionRow) (u : String) :
    computeSeriesUnderlying rows u = seriesUnderlyingSpec rows u := by
  by_cases hr : rows = []
  · subst hr
    rfl
  · have hne : rows.isEmpty = false := by
      simpa [List.isEmpty_iff] using hr
    have hlab := labels_code_eq_spec rows u
    have hget : ∀ d ∈ ((datesOf rows u).dedup).insertionSort (· ≤ · : String → String → Prop),
        (mapGet (seriesAcc u rows) d).getD (0, 0) =
          (sumValues rows u d, sumCosts rows u d) := by
      intro d hd
      have hd2 : d ∈ datesOf rows u := by
        have := (List.mem_insertionSort (· ≤ · : String → String → Prop)).mp hd
        exact List.mem_dedup.mp this
      rw [mapGet_seriesAcc, if_pos hd2]
      rfl
    simp only [computeSeriesUnderlying, seriesUnderlyingSpec, hne, Bool.false_eq_true,
      if_false, hlab]
    have hval : (((datesOf rows u).dedup).insertionSort (· ≤ · : String → String → Prop)).map
        (fun d => ((mapGet (seriesAcc u rows) d).getD (0, 0)).1) =
        (((datesOf rows u).dedup).insertionSort (· ≤ · : String → String → Prop)).map
          (sumValues rows u) := by
      apply List.map_congr_left
      intro d hd
      rw [hget d hd]
    have hcost : (((datesOf rows u).dedup).insertionSort (· ≤ · : String → String → Prop)).map
        (fun d => ((mapGet (seriesAcc u rows) d).getD (0, 0)).2) =
        (((datesOf rows u).dedup).insertionSort (· ≤ · : String → String → Prop)).map
          (fun d => sumCosts rows u d) := by
      apply List.map_congr_left
      intro d hd
      rw [hget d hd]
    rw [hval, hcost]
    rw [List.zipWith_map (· - ·) (sumValues rows u) (fun d => sumCosts rows u d)]
    rw [zipWith_same]
    rw [List.zipWith_map (fun p c => if 0 < c then p / c * 100 else 0)
      (fun d => sumValues rows u d - sumCosts rows u d) (fun d => sumCosts rows u d)]
    rw [zipWith_same]

/-- First scenario row of the spec: AAPL on 2025-01-02 with value 1000,
cost 5 per contract, 2 contracts. -/
def aaplRow1 : PositionRow :=
  ⟨"2025-01-02", "AAPL", "AAPL K", some 2, some 5, none, some 1000, none, none⟩

/-- Second scenario row of the spec: AAPL on 2025-01-02 with value 500,
cost 5 per contract, 1 contract. -/
def aaplRow2 : PositionRow :=
  ⟨"2025-01-02", "AAPL", "AAPL K", some 1, some 5, none, some 500, none, none⟩

/-- C1: `computeSeriesUnderlying(U)` keeps only the rows whose
`underlying` equals `U` exactly, groups them by date, sums `value` and the
implied cost `cost_per_contract * contracts * 100` per date, and emits one
point per distinct date sorted ascending by date string with
`pnl = value - cost`; on the two AAPL scenario rows it yields the single
point with date `2025-01-02`, value 1500, cost 1500, pnl 0 and
pctReturn 0. -/
theorem claim_C1_underlying_aggregation :
    (∀ (rows : List PositionRow) (u : String),
        computeSeriesUnderlying rows u = seriesUnderlyingSpec rows u) ∧
      computeSeriesUnderlying [aaplRow1, aaplRow2] "AAPL" =
        ⟨["2025-01-02"], [1500], [0], [0]⟩ ∧
      sumCosts [aaplRow1, aaplRow2] "AAPL" "2025-01-02" = 1500 := by
  refine ⟨computeSeriesUnderlying_eq_spec, ?_, ?_⟩
  · norm_num [computeSeriesUnderlying, seriesAcc, seriesStep, mapGet, mapSet,
      valC, costC, aaplRow1, aaplRow2, List.insertionSort, List.orderedInsert]
  · norm_num [sumCosts, costC, aaplRow1, aaplRow2]

/-- C2: in both `computeSeriesAll` and `computeSeriesUnderlying`, a point
whose cost basis is zero or negative gets percent return exactly 0 (never
`NaN` or an error). -/
theorem claim_C2_zero_cost_guard :
    (∀ (rows : List PortfolioRow) (i : ℕ) (r : PortfolioRow) (c : ℚ),
        (rows.insertionSort byDateAsc)[i]? = some r →
        r.total_cost_basis = some c → c ≤ 0 →
        (computeSeriesAll rows).pct[i]? = some (some 0)) ∧
      (∀ (rows : List PositionRow) (u : String) (i : ℕ) (d : String),
        (computeSeriesUnderlying rows u).labels[i]? = some d →
        sumCosts rows u d ≤ 0 →
        (computeSeriesUnderlying rows u).pct[i]? = some 0) := by
  constructor
  · intro rows i r c hget hc hle
    by_cases hr : rows = []
    · subst hr
      simp [List.insertionSort] at hget
    · have hne : rows.isEmpty = false := by simpa [List.isEmpty_iff] using hr
      simp only [computeSeriesAll, hne, Bool.false_eq_true, if_false,
        List.getElem?_map, hget, Option.map_some]
      have hp : pctOf r.total_pnl r.total_cost_basis = some 0 := by
        rw [hc]
        simp [pctOf, not_lt.mpr hle]
      simp [hp]
  · intro rows u i d hget hle
    rw [computeSeriesUnderlying_eq_spec] at hget ⊢
    simp only [seriesUnderlyingSpec] at hget ⊢
    rw [List.getElem?_map, hget]
    simp [not_lt.mpr hle]

/-- C3: `computeSeriesAll` is sorted ascending by date (lexical string
order), has one point per input row, and each point carries the
`total_value` and `total_pnl` of its row (the emitted
date/value/pnl triples are a permutation of the input rows' triples). -/
theorem claim_C3_all_series_shape :
    ∀ rows : List PortfolioRow,
      (computeSeriesAll rows).labels.Sorted (· ≤ ·) ∧
      (computeSeriesAll rows).value.length = rows.length ∧
      ((computeSeriesAll rows).labels.zip
          ((computeSeriesAll rows).value.zip (computeSeriesAll rows).pnl)).Perm
        (rows.map (fun r => (r.date, r.total_value, r.total_pnl))) := by
  intro rows
  by_cases hr : rows = []
  · subst hr
    refine ⟨?_, ?_, ?_⟩ <;> simp [computeSeriesAll]
  · have hne : rows.isEmpty = false := by simpa [List.isEmpty_iff] using hr
    have hs := List.sorted_insertionSort byDateAsc rows
    refine ⟨?_, ?_, ?_⟩
    · simp only [computeSeriesAll, hne, Bool.false_eq_true, if_false]
      exact List.pairwise_map.mpr hs
    · simp [computeSeriesAll, hne]
    · simp only [computeSeriesAll, hne, Bool.false_eq_true, if_false]
      rw [List.zip_map', List.zip_map']
      exact (List.perm_insertionSort byDateAsc rows).map _

/-! Lemmas about the `Math.min(...xs)` / `Math.max(...xs)` folds. -/

theorem foldl_min_le_init (x : ℚ) : ∀ xs : List ℚ, xs.foldl min x ≤ x
  | [] => le_refl x
  | y :: ys => le_trans (foldl_min_le_init (min x y) ys) (min_le_left x y)

theorem foldl_min_le (x q : ℚ) : ∀ xs : List ℚ, q ∈ x :: xs → xs.foldl min x ≤ q := by
  intro xs
  induction xs generalizing x with
  | nil =>
      intro hq
      rw [List.mem_singleton] at hq
      subst hq
      exact le_refl q
  | cons y ys ih =>
      intro hq
      rcases List.mem_cons.mp hq with rfl | hq2
      · exact le_trans (foldl_min_le_init (min q y) ys) (min_le_left q y)
      · rcases List.mem_cons.mp hq2 with rfl | hq3
        · exact le_trans (foldl_min_le_init (min x q) ys) (min_le_right x q)
        · exact ih (min x y) (List.mem_cons_of_mem _ hq3)

theorem le_foldl_max_init (x : ℚ) : ∀ xs : List ℚ, x ≤ xs.foldl max x
  | [] => le_refl x
  | y :: ys => le_trans (le_max_left x y) (le_foldl_max_init (max x y) ys)

theorem le_foldl_max (x q : ℚ) : ∀ xs : List ℚ, q ∈ x :: xs → q ≤ xs.foldl max x := by
  intro xs
  induction xs generalizing x with
  | nil =>
      intro hq
      rw [List.mem_singleton] at hq
      subst hq
      exact le_refl q
  | cons y ys ih =>
      intro hq
      rcases List.mem_cons.mp hq with rfl | hq2
      · exact le_trans (le_max_left q y) (le_foldl_max_init (max q y) ys)
      · rcases List.mem_cons.mp hq2 with rfl | hq3
        · exact le_trans (le_max_right x q) (le_foldl_max_init (max x q) ys)
        · exact ih (max x y) (List.mem_cons_of_mem _ hq3)

/-- C6: the axis-bounds derivation always brackets 0, includes every
finite percent value of its input, and falls back to exactly (-10, 10)
when the input has no finite value; non-finite values are excluded, not
coerced to 0. -/
theorem claim_C6_axis_bounds :
    ∀ pcts : List (Option ℚ),
      ((percentAxisBounds pcts).1 ≤ 0 ∧ 0 ≤ (percentAxisBounds pcts).2) ∧
      (∀ q : ℚ, some q ∈ pcts →
        (percentAxisBounds pcts).1 ≤ q ∧ q ≤ (percentAxisBounds pcts).2) ∧
      ((∀ v ∈ pcts, v = none) → percentAxisBounds pcts = (-10, 10)) := by
  intro pcts
  cases h : pcts.filterMap id with
  | nil =>
      refine ⟨?_, ?_, ?_⟩
      · simp only [percentAxisBounds, h]
        norm_num
      · intro q hq
        have : q ∈ pcts.filterMap id := List.mem_filterMap.mpr ⟨some q, hq, rfl⟩
        rw [h] at this
        exact absurd this (List.not_mem_nil q)
      · intro _
        simp [percentAxisBounds, h]
  | cons x xs =>
      refine ⟨?_, ?_, ?_⟩
      · simp only [percentAxisBounds, h]
        exact ⟨min_le_left 0 _, le_max_left 0 _⟩
      · intro q hq
        have hmem : q ∈ pcts.filterMap id := List.mem_filterMap.mpr ⟨some q, hq, rfl⟩
        rw [h] at hmem
        simp only [percentAxisBounds, h]
        exact ⟨le_trans (min_le_right 0 _) (foldl_min_le x q xs hmem),
          le_trans (le_foldl_max x q xs hmem) (le_max_right 0 _)⟩
      · intro hall
        have : pcts.filterMap id = [] := by
          rw [List.filterMap_eq_nil_iff]
          intro a ha
          rw [hall a ha]
          rfl
        rw [h] at this
        exact absurd this (List.cons_ne_nil x xs)

/-- Witness for C6: a concrete mixed input whose finite value is included
in the bounds, and a concrete all-non-finite input giving the fallback. -/
theorem claim_C6_axis_bounds_witness :
    (some (-3 : ℚ) ∈ ([some (-3), none] : List (Option ℚ)) ∧
      (percentAxisBounds [some (-3), none]).1 ≤ -3) ∧
      (∀ v ∈ ([none, none] : List (Option ℚ)), v = none) ∧
      percentAxisBounds [none, none] = (-10, 10) :=
  ⟨⟨by simp, ((claim_C6_axis_bounds [some (-3), none]).2.1 (-3) (by simp)).1⟩,
    by simp, (claim_C6_axis_bounds [none, none]).2.2 (by simp)⟩

/-- If a list is sorted by `r` and `y` is its last element, every element
is related to `y` or equal to it. -/
theorem rel_getLast_of_sorted {α : Type} {r : α → α → Prop} :
    ∀ (l : List α), l.Sorted r → ∀ (x y : α), x ∈ l → l.getLast? = some y →
      r x y ∨ x = y
  | [], _, x, _, hx, _ => absurd hx (List.not_mem_nil x)
  | [a], _, x, y, hx, hy => by
      rw [List.mem_singleton] at hx
      simp only [List.getLast?_singleton, Option.some.injEq] at hy
      subst hx
      subst hy
      exact Or.inr rfl
  | a :: b :: t, hs, x, y, hx, hy => by
      rw [List.getLast?_cons_cons] at hy
      rcases List.mem_cons.mp hx with rfl | hx2
      · exact Or.inl (List.rel_of_sorted_cons hs y (List.mem_of_getLast?_eq_some hy))
      · exact rel_getLast_of_sorted (b :: t) hs.of_cons x y hx2 hy

/-- C7: the latest-snapshot table consists of exactly the rows whose date
is the maximum date string present, in their original relative order (the
stable date sort preserves the relative order of equal dates), and an
empty row set yields an empty table. -/
theorem claim_C7_latest_snapshot_table :
    ∀ rows : List PositionRow,
      (rows = [] → positionsTableRows rows = []) ∧
      (rows ≠ [] → ∃ m : String,
        m ∈ rows.map (·.date) ∧
        (∀ r ∈ rows, r.date ≤ m) ∧
        positionsTableRows rows = rows.filter (fun r => decide (r.date = m))) := by
  intro rows
  constructor
  · intro hr
    subst hr
    rfl
  · intro hr
    have hne : rows.isEmpty = false := by simpa [List.isEmpty_iff] using hr
    have hsne : rows.insertionSort byDateAscPos ≠ [] := by
      intro hh
      apply hr
      have := congrArg List.length hh
      rw [List.length_insertionSort] at this
      exact List.length_eq_zero.mp this
    have hlast := List.getLast?_eq_getLast (rows.insertionSort byDateAscPos) hsne
    set last := (rows.insertionSort byDateAscPos).getLast hsne with hlastdef
    have hsorted := List.sorted_insertionSort byDateAscPos rows
    refine ⟨last.date, ?_, ?_, ?_⟩
    · exact List.mem_map_of_mem _
        ((List.mem_insertionSort byDateAscPos).mp (List.getLast_mem hsne))
    · intro r hrmem
      have hrs : r ∈ rows.insertionSort byDateAscPos :=
        (List.mem_insertionSort byDateAscPos).mpr hrmem
      rcases rel_getLast_of_sorted _ hsorted r last hrs hlast with h | h
      · exact h
      · rw [h]
    · have htab : positionsTableRows rows =
          (rows.insertionSort byDateAscPos).filter
            (fun r => decide (r.date = last.date)) := by
        simp only [positionsTableRows, hne, Bool.false_eq_true, if_false, hlast]
      rw [htab]
      have hpair : (rows.filter (fun r => decide (r.date = last.date))).Pairwise
          byDateAscPos := by
        apply List.pairwise_of_forall_mem_list
        intro a ha b hb
        have ha2 : a.date = last.date :=
          of_decide_eq_true (List.mem_filter.mp ha).2
        have hb2 : b.date = last.date :=
          of_decide_eq_true (List.mem_filter.mp hb).2
        show a.date ≤ b.date
        exact le_of_eq (ha2.trans hb2.symm)
      have hsub : List.Sublist (rows.filter (fun r => decide (r.date = last.date)))
          (rows.insertionSort byDateAscPos) :=
        List.sublist_insertionSort hpair (List.filter_sublist rows)
      have hcc : (rows.filter (fun r => decide (r.date = last.date))).filter
          (fun r => decide (r.date = last.date)) =
          rows.filter (fun r => decide (r.date = last.date)) :=
        List.filter_eq_self.mpr (fun a ha => (List.mem_filter.mp ha).2)
      have hsub2 := hsub.filter (fun r => decide (r.date = last.date))
      rw [hcc] at hsub2
      have hperm : ((rows.insertionSort byDateAscPos).filter
          (fun r => decide (r.date = last.date))).Perm
          (rows.filter (fun r => decide (r.date = last.date))) :=
        (List.perm_insertionSort byDateAscPos rows).filter _
      exact (hsub2.eq_of_length hperm.length_eq.symm).symm

/-- Witness rows for C7: two positions on distinct dates. -/
def tblRow1 : PositionRow :=
  ⟨"2025-01-01", "MSFT", "MSFT K", some 1, some 12, none, some 900, none, none⟩

/-- Witness rows for C7: the later-dated position. -/
def tblRow2 : PositionRow :=
  ⟨"2025-01-02", "AAPL", "AAPL K", some 2, some 5, none, some 1000, none, none⟩

/-- Witness for C7: the nonempty branch applied to two concrete rows. -/
theorem claim_C7_latest_snapshot_table_witness :
    ([tblRow1, tblRow2] : List PositionRow) ≠ [] ∧
      ∃ m : String,
        m ∈ ([tblRow1, tblRow2] : List PositionRow).map (·.date) ∧
        (∀ r ∈ ([tblRow1, tblRow2] : List PositionRow), r.date ≤ m) ∧
        positionsTableRows [tblRow1, tblRow2] =
          ([tblRow1, tblRow2] : List PositionRow).filter
            (fun r => decide (r.date = m)) :=
  ⟨by simp, (claim_C7_latest_snapshot_table [tblRow1, tblRow2]).2 (by simp)⟩

/-- C9: `applyFilter` is idempotent: applying the same underlying twice in
a row yields exactly the same state (same derived series, same header
stats) as applying it once. -/
theorem claim_C9_applyFilter_idempotent :
    ∀ (s : AppState) (u : String),
      applyFilter u (applyFilter u s) = applyFilter u s := by
  intro s u
  cases ht : jsTruthy (some u) with
  | true =>
      cases hh : headerStatsUnderlying s.historyRows u with
      | none => simp [applyFilter, updateHeaderStatsByFilter, ht, hh]
      | some h => simp [applyFilter, updateHeaderStatsByFilter, ht, hh]
  | false =>
      cases hh : headerStatsOverall s.portfolioRows with
      | none => simp [applyFilter, updateHeaderStatsByFilter, ht, hh]
      | some h => simp [applyFilter, updateHeaderStatsByFilter, ht, hh]

/-- Witness row for C2: a portfolio row with zero cost basis. -/
def pRow0 : PortfolioRow := ⟨"2025-01-01", some 5, some 0, some 3⟩

/-- Witness row for C2: a position row with zero entry cost. -/
def uRow0 : PositionRow :=
  ⟨"2025-01-01", "A", "A K", some 1, some 0, none, some 5, none, none⟩

/-- Witness for C2: both zero-cost-basis guards evaluated on concrete
single-row inputs. -/
theorem claim_C2_zero_cost_guard_witness :
    ((List.insertionSort byDateAsc [pRow0])[0]? = some pRow0 ∧
      (computeSeriesAll [pRow0]).pct[0]? = some (some 0)) ∧
      ((computeSeriesUnderlying [uRow0] "A").labels[0]? = some "2025-01-01" ∧
        sumCosts [uRow0] "A" "2025-01-01" ≤ 0 ∧
        (computeSeriesUnderlying [uRow0] "A").pct[0]? = some 0) := by
  have h1 : (List.insertionSort byDateAsc [pRow0])[0]? = some pRow0 := by decide
  have h2 : (computeSeriesUnderlying [uRow0] "A").labels[0]? = some "2025-01-01" := by
    norm_num [computeSeriesUnderlying, seriesAcc, seriesStep, mapGet, mapSet,
      valC, costC, uRow0, List.insertionSort, List.orderedInsert]
  have h3 : sumCosts [uRow0] "A" "2025-01-01" ≤ 0 := by
    norm_num [sumCosts, costC, uRow0]
  exact ⟨⟨h1, claim_C2_zero_cost_guard.1 [pRow0] 0 pRow0 0 h1 rfl (le_refl 0)⟩,
    ⟨h2, h3, claim_C2_zero_cost_guard.2 [uRow0] "A" 0 "2025-01-01" h2 h3⟩⟩

/-! Lemmas about `firstDedup`, the model of `Array.from(new Set(xs))`. -/

theorem mem_foldl_dedup (l : List String) : ∀ (acc : List String) (a : String),
    a ∈ l.foldl (fun acc d => if d ∈ acc then acc else acc ++ [d]) acc ↔
      a ∈ acc ∨ a ∈ l := by
  induction l with
  | nil => intro acc a; simp
  | cons d ds ih =>
      intro acc a
      rw [List.foldl_cons, ih]
      by_cases hd : d ∈ acc
      · rw [if_pos hd]
        constructor
        · rintro (h | h)
          · exact Or.inl h
          · exact Or.inr (List.mem_cons_of_mem _ h)
        · rintro (h | h)
          · exact Or.inl h
          · rcases List.mem_cons.mp h with rfl | h2
            · exact Or.inl hd
            · exact Or.inr h2
      · rw [if_neg hd]
        simp only [List.mem_append, List.mem_singleton, List.mem_cons]
        tauto

theorem mem_firstDedup (l : List String) (a : String) :
    a ∈ firstDedup l ↔ a ∈ l := by
  have h := mem_foldl_dedup l [] a
  simpa [firstDedup] using h

/-- Counterexample rows for C4: underlying `A` appears only on the earlier
date. -/
def hdrRowA : PositionRow :=
  ⟨"2025-01-01", "A", "A K", some 2, some 5, none, some 1000, none, none⟩

/-- Counterexample rows for C4: underlying `B` owns the latest date. -/
def hdrRowB : PositionRow :=
  ⟨"2025-01-02", "B", "B K", some 1, some 5, none, some 500, none, none⟩

/-- Counterexample for C4: for underlying `A`, the last point of its own
series has value 1000, but the header stats are computed on the latest
date over all rows (2025-01-02, owned by `B`), where `A` has no rows, so
they come out as zeros — not as the last point of the filtered series. -/
theorem claim_C4_counterexample :
    headerStatsUnderlying [hdrRowA, hdrRowB] "A" =
      some ⟨some 0, some 0, some 0⟩ ∧
      (computeSeriesUnderlying [hdrRowA, hdrRowB] "A").value.getLast? =
        some 1000 ∧
      some (0 : ℚ) ≠ some (1000 : ℚ) := by
  have hle : ("2025-01-01" : String) ≤ "2025-01-02" := by
    rw [String.le_iff_toList_le]; decide
  have d1 : (decide (("2025-01-01" : String) = "2025-01-02")) = false := by decide
  have d2 : (decide (("B" : String) = "A")) = false := by decide
  refine ⟨?_, ?_, by norm_num⟩
  · norm_num [headerStatsUnderlying, latestDateAll, firstDedup, hdrRowA, hdrRowB,
      List.insertionSort, List.orderedInsert, valC, costC, hle, List.filter, d1, d2]
  · norm_num [computeSeriesUnderlying, seriesAcc, seriesStep, mapGet, mapSet,
      valC, costC, hdrRowA, hdrRowB, List.insertionSort, List.orderedInsert, hle]

/-- Scenario row of C4: one portfolio row. -/
def pRowS : PortfolioRow := ⟨"2025-01-01", some 1000, some 1100, some (-100)⟩

/-- C4 (amended): the whole-portfolio header stats come from the last
chronological point of the whole-portfolio series (value and pnl verbatim,
percent return recomputed with the zero-cost guard); the per-underlying
header stats are instead summed over the rows of that underlying on the
latest date across ALL position rows (which need not belong to the
filtered series, yielding zeros when the underlying has no rows on that
date); the scenario gives totalValue 1000, totalPnl -100 and
totalPctReturn -100/11 ≈ -9.09. -/
theorem claim_C4_header_stats_amended :
    (∀ rows : List PortfolioRow, rows ≠ [] →
      ∃ h : HeaderStats, headerStatsOverall rows = some h ∧
        (computeSeriesAll rows).value.getLast? = some h.totalValue ∧
        (computeSeriesAll rows).pnl.getLast? = some h.totalPnl ∧
        (computeSeriesAll rows).pct.getLast? = some h.totalPct) ∧
      (∀ (rows : List PositionRow) (u : String), rows ≠ [] →
        ∃ m : String, latestDateAll rows = some m ∧
          m ∈ rows.map (·.date) ∧
          (∀ r ∈ rows, r.date ≤ m) ∧
          headerStatsUnderlying rows u =
            some ⟨some (sumValues rows u m),
              some (sumValues rows u m - sumCosts rows u m),
              some (if 0 < sumCosts rows u m then
                (sumValues rows u m - sumCosts rows u m) / sumCosts rows u m * 100
              else 0)⟩) ∧
      headerStatsOverall [pRowS] =
        some ⟨some 1000, some (-100), some (-100 / 11)⟩ := by
  refine ⟨?_, ?_, ?_⟩
  · intro rows hr
    have hne : rows.isEmpty = false := by simpa [List.isEmpty_iff] using hr
    have hsne : rows.insertionSort byDateAsc ≠ [] := by
      intro hh
      apply hr
      have hl := congrArg List.length hh
      rw [List.length_insertionSort] at hl
      exact List.length_eq_zero.mp hl
    have hlast := List.getLast?_eq_getLast (rows.insertionSort byDateAsc) hsne
    refine ⟨⟨((rows.insertionSort byDateAsc).getLast hsne).total_value,
      ((rows.insertionSort byDateAsc).getLast hsne).total_pnl,
      pctOf ((rows.insertionSort byDateAsc).getLast hsne).total_pnl
        ((rows.insertionSort byDateAsc).getLast hsne).total_cost_basis⟩,
      ?_, ?_, ?_, ?_⟩
    · simp only [headerStatsOverall, hne, Bool.false_eq_true, if_false, hlast]
    · simp only [computeSeriesAll, hne, Bool.false_eq_true, if_false,
        List.getLast?_map, hlast, Option.map_some']
    · simp only [computeSeriesAll, hne, Bool.false_eq_true, if_false,
        List.getLast?_map, hlast, Option.map_some']
    · simp only [computeSeriesAll, hne, Bool.false_eq_true, if_false,
        List.getLast?_map, hlast, Option.map_some']
  · intro rows u hr
    have hne : rows.isEmpty = false := by simpa [List.isEmpty_iff] using hr
    have hdne : (firstDedup (rows.map (·.date))).insertionSort (· ≤ ·) ≠ [] := by
      intro hh
      rcases List.exists_mem_of_ne_nil rows hr with ⟨r, hrm⟩
      have hmem : r.date ∈ firstDedup (rows.map (·.date)) :=
        (mem_firstDedup _ _).mpr (List.mem_map_of_mem _ hrm)
      have hmem2 : r.date ∈ (firstDedup (rows.map (·.date))).insertionSort (· ≤ ·) :=
        (List.mem_insertionSort _).mpr hmem
      rw [hh] at hmem2
      exact List.not_mem_nil _ hmem2
    have hlast := List.getLast?_eq_getLast
      ((firstDedup (rows.map (·.date))).insertionSort (· ≤ ·)) hdne
    set m := ((firstDedup (rows.map (·.date))).insertionSort (· ≤ ·)).getLast hdne
      with hmdef
    have hm : latestDateAll rows = some m := hlast
    refine ⟨m, hm, ?_, ?_, ?_⟩
    · exact (mem_firstDedup _ _).mp
        ((List.mem_insertionSort _).mp (List.getLast_mem hdne))
    · intro r hrm
      have hmem : r.date ∈ (firstDedup (rows.map (·.date))).insertionSort (· ≤ ·) :=
        (List.mem_insertionSort _).mpr
          ((mem_firstDedup _ _).mpr (List.mem_map_of_mem _ hrm))
      rcases rel_getLast_of_sorted _ (List.sorted_insertionSort _ _) r.date m
          hmem hlast with h | h
      · exact h
      · exact le_of_eq h
    · have hfc : rows.filter (fun r => decide (r.date = m ∧ r.underlying = u)) =
          rows.filter (fun r => decide (r.underlying = u ∧ r.date = m)) :=
        List.filter_congr (fun r _ => decide_eq_decide.mpr and_comm)
      simp only [headerStatsUnderlying, hne, Bool.false_eq_true, if_false, hm, hfc]
      rfl
  · norm_num [headerStatsOverall, pctOf, pRowS, List.insertionSort,
      List.orderedInsert]

/-- Witness for C4 (amended): the per-underlying branch applied to the
concrete two-row log. -/
theorem claim_C4_header_stats_amended_witness :
    ([hdrRowA, hdrRowB] : List PositionRow) ≠ [] ∧
      ∃ m : String, latestDateAll [hdrRowA, hdrRowB] = some m ∧
        m ∈ ([hdrRowA, hdrRowB] : List PositionRow).map (·.date) ∧
        (∀ r ∈ ([hdrRowA, hdrRowB] : List PositionRow), r.date ≤ m) ∧
        headerStatsUnderlying [hdrRowA, hdrRowB] "A" =
          some ⟨some (sumValues [hdrRowA, hdrRowB] "A" m),
            some (sumValues [hdrRowA, hdrRowB] "A" m -
              sumCosts [hdrRowA, hdrRowB] "A" m),
            some (if 0 < sumCosts [hdrRowA, hdrRowB] "A" m then
              (sumValues [hdrRowA, hdrRowB] "A" m -
                sumCosts [hdrRowA, hdrRowB] "A" m) /
                sumCosts [hdrRowA, hdrRowB] "A" m * 100
            else 0)⟩ :=
  ⟨by simp, claim_C4_header_stats_amended.2.1 [hdrRowA, hdrRowB] "A" (by simp)⟩

/-- Counterexample row for C5: the `value` field fails to parse but the
cost fields are fine. -/
def nanRow : PositionRow :=
  ⟨"2025-01-01", "A", "A K", some 2, some 5, none, none, none, none⟩

/-- Counterexample for C5: a row with a non-parsing `value` contributes 0
to the value sum but still contributes its full cost
(5 × 2 × 100 = 1000) to the cost sum — the zeroing is per field, not per
row, so the emitted point is value 0, pnl -1000, pctReturn -100. -/
theorem claim_C5_counterexample :
    nanRow.value = none ∧
      sumValues [nanRow] "A" "2025-01-01" = 0 ∧
      sumCosts [nanRow] "A" "2025-01-01" = 1000 ∧
      computeSeriesUnderlying [nanRow] "A" =
        ⟨["2025-01-01"], [0], [-1000], [-100]⟩ ∧
      (1000 : ℚ) ≠ 0 := by
  refine ⟨rfl, ?_, ?_, ?_, by norm_num⟩
  · norm_num [sumValues, valC, nanRow]
  · norm_num [sumCosts, costC, nanRow]
  · norm_num [computeSeriesUnderlying, seriesAcc, seriesStep, mapGet, mapSet,
      valC, costC, nanRow, List.insertionSort, List.orderedInsert]

/-- Witness row for C5 (amended): the `contracts` field fails to parse. -/
def nanRow2 : PositionRow :=
  ⟨"2025-01-01", "A", "A K", none, some 5, none, some 10, none, none⟩

/-- C5 (amended): each non-parsing numeric field zeroes its own
contribution — a row with non-finite `value` contributes 0 to the value
sum, and a row with non-finite `cost_per_contract` or `contracts`
contributes 0 to the cost sum — and the aggregation always completes,
producing the spec's per-date sums over all rows. -/
theorem claim_C5_per_field_zeroing_amended :
    (∀ r : PositionRow, r.value = none → valC r = 0) ∧
      (∀ r : PositionRow, r.cost_per_contract = none ∨ r.contracts = none →
        costC r = 0) ∧
      (∀ (rows : List PositionRow) (u : String),
        computeSeriesUnderlying rows u = seriesUnderlyingSpec rows u) := by
  refine ⟨?_, ?_, computeSeriesUnderlying_eq_spec⟩
  · intro r h
    simp [valC, h]
  · intro r h
    rcases h with h | h
    · simp [costC, h]
    · cases hc : r.cost_per_contract <;> simp [costC, h, hc]

/-- Witness for C5 (amended): the two per-field zeroing statements applied
to concrete rows. -/
theorem claim_C5_per_field_zeroing_amended_witness :
    nanRow.value = none ∧ valC nanRow = 0 ∧
      nanRow2.contracts = none ∧ costC nanRow2 = 0 :=
  ⟨rfl, claim_C5_per_field_zeroing_amended.1 nanRow rfl, rfl,
    claim_C5_per_field_zeroing_amended.2.1 nanRow2 (Or.inr rfl)⟩

/-! Lemmas about the row-building loop of `parseCSV`. -/

theorem mapGet_rowObjFrom_of_not_mem (h : String) :
    ∀ (hs : List String) (obj : List (String × Option String)) (cols : List String),
      h ∉ hs → mapGet (rowObjFrom obj hs cols) h = mapGet obj h := by
  intro hs
  induction hs with
  | nil => intro obj cols _; rfl
  | cons hd t ih =>
      intro obj cols hmem
      have h1 : h ≠ hd := fun hh => hmem (by rw [hh]; exact List.mem_cons_self hd t)
      have h2 : h ∉ t := fun hh => hmem (List.mem_cons_of_mem hd hh)
      rw [rowObjFrom, ih _ _ h2, mapGet_mapSet_ne obj _ h1]

theorem isSome_mapGet_rowObjFrom (k : String) :
    ∀ (hs : List String) (obj : List (String × Option String)) (cols : List String),
      (mapGet (rowObjFrom obj hs cols) k).isSome ↔
        (mapGet obj k).isSome ∨ k ∈ hs := by
  intro hs
  induction hs with
  | nil => intro obj cols; simp [rowObjFrom]
  | cons hd t ih =>
      intro obj cols
      rw [rowObjFrom, ih]
      by_cases hk : k = hd
      · subst hk
        rw [mapGet_mapSet_self]
        simp
      · rw [mapGet_mapSet_ne obj _ hk]
        simp only [List.mem_cons]
        tauto

theorem mapGet_rowObjFrom_missing_col (h : String) :
    ∀ (hs1 : List String) (hs2 cols : List String)
      (obj : List (String × Option String)),
      h ∉ hs2 → cols.length ≤ hs1.length →
      mapGet (rowObjFrom obj (hs1 ++ h :: hs2) cols) h = some none := by
  intro hs1
  induction hs1 with
  | nil =>
      intro hs2 cols obj hmem hlen
      have hc : cols = [] := List.length_eq_zero.mp (Nat.le_zero.mp hlen)
      subst hc
      rw [List.nil_append, rowObjFrom,
        mapGet_rowObjFrom_of_not_mem h hs2 _ _ hmem]
      exact mapGet_mapSet_self obj h none
  | cons hd t ih =>
      intro hs2 cols obj hmem hlen
      rw [List.cons_append, rowObjFrom]
      apply ih _ _ _ hmem
      rw [List.length_tail]
      rw [List.length_cons] at hlen
      omega

/-- C8: the parser returns no rows (and no error) on an empty or
header-only text, and a data row shorter than the header stores the
`undefined`-equivalent value for each missing trailing field (stated for
the header's last occurrence of the field name, as later assignments of a
duplicated header name overwrite earlier ones). -/
theorem claim_C8_parser_tolerance :
    (∀ text : String, (splitLines (jsTrim text)).length ≤ 1 →
      parseCSV text = ⟨[], []⟩) ∧
      (∀ (hs1 : List String) (h : String) (hs2 cols : List String),
        h ∉ hs2 → cols.length ≤ hs1.length →
        mapGet (rowObj (hs1 ++ h :: hs2) cols) h = some none) := by
  constructor
  · intro text hle
    simp [parseCSV, hle]
  · intro hs1 h hs2 cols hmem hlen
    exact mapGet_rowObjFrom_missing_col h hs1 hs2 cols [] hmem hlen

/-- Witness for C8: a header-only text parses to nothing, and a two-column
header with a one-column data row stores `undefined` for the second
field. -/
theorem claim_C8_parser_tolerance_witness :
    (splitLines (jsTrim "date,total_value")).length ≤ 1 ∧
      parseCSV "date,total_value" = ⟨[], []⟩ ∧
      ("b" : String) ∉ ([] : List String) ∧
      (["x"] : List String).length ≤ (["a"] : List String).length ∧
      mapGet (rowObj ["a", "b"] ["x"]) "b" = some none :=
  ⟨by decide, claim_C8_parser_tolerance.1 "date,total_value" (by decide),
    by decide, by decide,
    claim_C8_parser_tolerance.2 ["a"] "b" [] ["x"] (by decide) (by decide)⟩

/-- C10: on a text with at least one data line, `parseCSV` produces
exactly one record per data line (blank interior lines included), the
header names come from the first line, and every record's key set is
exactly the set of header names (so data columns beyond the header count
are discarded); the parser is a total function and never throws. -/
theorem claim_C10_parser_record_shape :
    ∀ (text hdr : String) (rest : List String),
      splitLines (jsTrim text) = hdr :: rest → rest ≠ [] →
      (parseCSV text).rows.length = rest.length ∧
      (parseCSV text).headers = jsSplit ',' hdr ∧
      ∀ row ∈ (parseCSV text).rows, ∀ k : String,
        (mapGet row k).isSome ↔ k ∈ (parseCSV text).headers := by
  intro text hdr rest hsplit hne
  have hlen2 : ¬ ((hdr :: rest).length ≤ 1) := by
    simp only [List.length_cons]
    have hp : 0 < rest.length := List.length_pos.mpr hne
    omega
  have hps : parseCSV text =
      ⟨jsSplit ',' hdr,
        rest.map (fun line => rowObj (jsSplit ',' hdr) (jsSplit ',' line))⟩ := by
    simp only [parseCSV, hsplit]
    rw [if_neg hlen2]
  refine ⟨?_, ?_, ?_⟩
  · rw [hps]
    simp
  · rw [hps]
  · intro row hrow k
    rw [hps] at hrow ⊢
    rcases List.mem_map.mp hrow with ⟨line, _, heq⟩
    rw [← heq]
    have h := isSome_mapGet_rowObjFrom k (jsSplit ',' hdr) [] (jsSplit ',' line)
    rw [rowObj, h]
    simp [mapGet]

/-- Witness for C10: the two-line text `a,b` + newline + `x` yields one
record whose key set is the header set. -/
theorem claim_C10_parser_record_shape_witness :
    splitLines (jsTrim "a,b\nx") = ["a,b", "x"] ∧
      (parseCSV "a,b\nx").rows.length = 1 ∧
      (parseCSV "a,b\nx").headers = jsSplit ',' "a,b" ∧
      rowObj ["a", "b"] ["x"] ∈ (parseCSV "a,b\nx").rows ∧
      (mapGet (rowObj ["a", "b"] ["x"]) "b").isSome := by
  have h := claim_C10_parser_record_shape "a,b\nx" "a,b" ["x"] (by decide) (by decide)
  refine ⟨by decide, h.1, h.2.1, by decide, ?_⟩
  exact (h.2.2 (rowObj ["a", "b"] ["x"]) (by decide) "b").mpr (by decide)

end OptionsTracker
